import Mathlib

/-!
Verification development for the GzipFileBuffer stream-rotation tool.

The program ingests a byte stream and writes it to a sequence of
size-bounded, retention-limited compressed files, optionally splitting
only at block boundaries described by a textual header-format
mini-language.  This file shallowly embeds the core of the source:

* the header-format parser (source function parseBlockHeaderFormat),
* the block-header validator and boundary scanner (validateBlockHeader,
  findBlockHeader),
* the pending-buffer boundary rotation engine (flushPendingData of the
  buffered variant, which returns payload length from its validator),
* the rotation state machine (write, openNewFile, closeCurrentFile),
* the startup resume logic (loadExistingFiles).

Machine integers are modelled as Nat (bytes are Nats; the Go uint64 to
int64 reinterpretation used for timestamp validation is made explicit).
Filesystem and compressor effects are modelled by their payload content:
a file is the list of bytes handed to its compressor, and the
compressed-size rotation trigger (a stat of the file on disk) is an
oracle boolean supplied with each write event, since the compression
ratio is outside the program.
-/

/-- Semantic type of a header field (source: FieldType). -/
inductive FieldType where
  | FieldSec
  | FieldUsec
  | FieldNsec
  | FieldLength
  | FieldMagic
  | FieldIgnore
deriving DecidableEq, Repr

/-- Byte order for multi-byte fields (source: Endianness). -/
inductive Endianness where
  | LittleEndian
  | BigEndian
deriving DecidableEq, Repr

/-- One parsed header field (source: HeaderField).  The source names the
second field Type, which is a reserved word here, so it is FType. -/
structure HeaderField where
  Width : Nat
  FType : FieldType
  MagicValue : Nat
  Signed : Bool
deriving DecidableEq, Repr

/-- A compiled header-format descriptor (source: BlockHeaderFormat). -/
structure BlockHeaderFormat where
  Fields : List HeaderField
  TotalBytes : Nat
  HasLength : Bool
  LengthIndex : Nat
  ByteOrder : Endianness
deriving DecidableEq, Repr

/-- Value of the first k bytes of a byte list under the given byte order;
this is the mathematical value computed by the binary.LittleEndian and
binary.BigEndian readers in the source (a 1-byte read is the byte itself
under either order). -/
def readBytes (e : Endianness) (k : Nat) (l : List Nat) : Nat :=
  match e with
  | Endianness.LittleEndian => (l.take k).foldr (fun b acc => b + 256 * acc) 0
  | Endianness.BigEndian => (l.take k).foldl (fun acc b => acc * 256 + b) 0

/-- Reinterpretation of a uint64 value as int64, as in the Go conversion
int64(value) applied to the seconds field. -/
def toInt64 (v : Nat) : Int :=
  if v < 2 ^ 63 then (v : Int) else (v : Int) - 2 ^ 64

/-- A raw token matched by the format regex, before width and type
checking: the sign letter, the digit run, and the optional type text. -/
structure RawToken where
  signed : Bool
  widthStr : List Char
  typeStr : Option (List Char)
deriving DecidableEq, Repr

/-- Decimal value of a digit run (models strconv.Atoi on the width). -/
def digitsToNat (ds : List Char) : Nat :=
  ds.foldl (fun acc c => acc * 10 + (c.toNat - '0'.toNat)) 0

/-- Whether a character is a hexadecimal digit, as accepted by
strconv.ParseUint with base 16. -/
def isHexChar (c : Char) : Bool :=
  c.isDigit || ('a' ≤ c && c ≤ 'f') || ('A' ≤ c && c ≤ 'F')

/-- Numeric value of one hexadecimal digit. -/
def hexVal (c : Char) : Nat :=
  if c.isDigit then c.toNat - '0'.toNat
  else if 'a' ≤ c && c ≤ 'f' then c.toNat - 'a'.toNat + 10
  else c.toNat - 'A'.toNat + 10

/-- Value of a hexadecimal digit run. -/
def hexToNat (ds : List Char) : Nat :=
  ds.foldl (fun acc c => acc * 16 + hexVal c) 0

/-- Attempt to match one token of the format regex at the head of the
character list.  This hand-rolls the source regex
<([us])(\d+)(?::([^>]+))?> : an opening angle, a sign letter, a greedy
nonempty digit run, then either the closing angle or a colon followed by
a greedy nonempty run of non-angle characters and the closing angle.
Returns the token and the characters after the match. -/
def matchTokenAt (l : List Char) : Option (RawToken × List Char) :=
  match l with
  | '<' :: c :: rest =>
    if c = 'u' ∨ c = 's' then
      let digits := rest.takeWhile Char.isDigit
      if digits.isEmpty then none
      else
        match rest.dropWhile Char.isDigit with
        | '>' :: rem =>
          some ({ signed := decide (c = 's'), widthStr := digits, typeStr := none }, rem)
        | ':' :: rest2 =>
          let ty := rest2.takeWhile (fun d => d ≠ '>')
          if ty.isEmpty then none
          else
            match rest2.dropWhile (fun d => d ≠ '>') with
            | '>' :: rem =>
              some ({ signed := decide (c = 's'), widthStr := digits, typeStr := some ty }, rem)
            | _ => none
        | _ => none
    else none
  | _ => none

/-- Fuelled left-to-right non-overlapping scan for regex matches, as
performed by FindAllStringSubmatch: try to match at every position, and
on a match continue after it.  Each step consumes at least one
character, so fuel equal to the input length never runs out. -/
def tokenScanFuel : Nat → List Char → List RawToken
  | 0, _ => []
  | _ + 1, [] => []
  | fuel + 1, l@(_ :: rest) =>
    match matchTokenAt l with
    | some (t, rem) => t :: tokenScanFuel fuel rem
    | none => tokenScanFuel fuel rest

/-- All regex matches of the format string, in order. -/
def tokenScan (l : List Char) : List RawToken :=
  tokenScanFuel l.length l

/-- Compile one raw token into a header field, validating the width and
the type keyword exactly as the source loop body does (unknown width,
unknown type keyword, or a bad magic literal are fatal there, hence
none).  The magic value must parse as a base-16 uint64. -/
def compileField (t : RawToken) : Option HeaderField :=
  let width := digitsToNat t.widthStr
  if width = 8 ∨ width = 16 ∨ width = 32 ∨ width = 64 then
    match t.typeStr with
    | none => some { Width := width, FType := FieldType.FieldIgnore, MagicValue := 0, Signed := t.signed }
    | some ty =>
      if ty = "sec".data then
        some { Width := width, FType := FieldType.FieldSec, MagicValue := 0, Signed := t.signed }
      else if ty = "usec".data then
        some { Width := width, FType := FieldType.FieldUsec, MagicValue := 0, Signed := t.signed }
      else if ty = "nsec".data then
        some { Width := width, FType := FieldType.FieldNsec, MagicValue := 0, Signed := t.signed }
      else if ty = "length".data then
        some { Width := width, FType := FieldType.FieldLength, MagicValue := 0, Signed := t.signed }
      else
        match ty with
        | '0' :: 'x' :: hs =>
          if hs ≠ [] ∧ hs.all isHexChar ∧ hexToNat hs < 2 ^ 64 then
            some { Width := width, FType := FieldType.FieldMagic, MagicValue := hexToNat hs, Signed := t.signed }
          else none
        | _ => none
  else none

/-- Append a compiled field to a descriptor under construction,
updating TotalBytes, and HasLength and LengthIndex exactly as the
source loop body does: every length field overwrites LengthIndex with
its own position. -/
def pushField (acc : BlockHeaderFormat) (f : HeaderField) : BlockHeaderFormat :=
  { Fields := acc.Fields ++ [f]
    TotalBytes := acc.TotalBytes + f.Width / 8
    HasLength := acc.HasLength || decide (f.FType = FieldType.FieldLength)
    LengthIndex := if f.FType = FieldType.FieldLength then acc.Fields.length else acc.LengthIndex
    ByteOrder := acc.ByteOrder }

/-- Fold the compiled tokens into a descriptor; the first bad token
aborts (the source exits the process there). -/
def buildFormat : List RawToken → BlockHeaderFormat → Option BlockHeaderFormat
  | [], acc => some acc
  | t :: ts, acc =>
    match compileField t with
    | none => none
    | some f => buildFormat ts (pushField acc f)

/-- The empty descriptor a parse starts from (Go zero values). -/
def initFormat (e : Endianness) : BlockHeaderFormat :=
  { Fields := [], TotalBytes := 0, HasLength := false, LengthIndex := 0, ByteOrder := e }

/-- The format parser (source: parseBlockHeaderFormat).  A format with
no regex match at all is rejected, otherwise each match is compiled in
order. -/
def parseBlockHeaderFormat (format : String) (e : Endianness) : Option BlockHeaderFormat :=
  let ts := tokenScan format.data
  if ts.isEmpty then none else buildFormat ts (initFormat e)

/-- Sum of the byte widths of a field list; the parser keeps TotalBytes
equal to this. -/
def sumBytes (fields : List HeaderField) : Nat :=
  (fields.map (fun f => f.Width / 8)).sum

/-- The width switch of the boolean header validator: each width case
checks that enough bytes remain and reads the value per the configured
byte order; a width outside 8/16/32/64 falls through the Go switch
leaving the value 0 and the offset unchanged. -/
def readStep (e : Endianness) (data : List Nat) (offset w : Nat) : Option (Nat × Nat) :=
  if w = 8 then
    if offset + 1 ≤ data.length then some (readBytes e 1 (data.drop offset), offset + 1) else none
  else if w = 16 then
    if offset + 2 ≤ data.length then some (readBytes e 2 (data.drop offset), offset + 2) else none
  else if w = 32 then
    if offset + 4 ≤ data.length then some (readBytes e 4 (data.drop offset), offset + 4) else none
  else if w = 64 then
    if offset + 8 ≤ data.length then some (readBytes e 8 (data.drop offset), offset + 8) else none
  else some (0, offset)

/-- The per-type switch of the boolean header validator, written exactly
as the Go rejection conditions. -/
def goFieldCheck (mbs : Nat) (now : Int) (f : HeaderField) (value : Nat) : Bool :=
  match f.FType with
  | FieldType.FieldSec =>
    decide (¬ (toInt64 value - now < -(48 * 3600) ∨ (48 * 3600 : Int) < toInt64 value - now))
  | FieldType.FieldUsec => decide (¬ (999999 < value))
  | FieldType.FieldNsec => decide (¬ (999999999 < value))
  | FieldType.FieldLength => decide (¬ (mbs < value))
  | FieldType.FieldMagic => decide (value = f.MagicValue)
  | FieldType.FieldIgnore => true

/-- Body of the boolean header validator (source: validateBlockHeader in
the descriptor module).  Walks the fields in order with a byte offset;
the first failing per-type check rejects. -/
def validateHeaderAux (e : Endianness) (mbs : Nat) (now : Int) (data : List Nat) :
    List HeaderField → Nat → Bool
  | [], _ => true
  | f :: fs, offset =>
    match readStep e data offset f.Width with
    | none => false
    | some (value, offset2) =>
      if goFieldCheck mbs now f value then validateHeaderAux e mbs now data fs offset2
      else false

/-- The boolean header validator (source: validateBlockHeader): a window
shorter than TotalBytes is rejected outright, otherwise the fields are
checked in order from offset 0. -/
def validateBlockHeader (fmt : BlockHeaderFormat) (mbs : Nat) (now : Int) (data : List Nat) : Bool :=
  if data.length < fmt.TotalBytes then false
  else validateHeaderAux fmt.ByteOrder mbs now data fmt.Fields 0

/-- Modelled from the spec: the values a conforming reader obtains by
consuming the fields strictly in declared order, width/8 bytes each,
interpreted per the configured byte order; paired with their fields. -/
def specFieldReads (e : Endianness) (data : List Nat) :
    List HeaderField → Nat → List (HeaderField × Nat)
  | [], _ => []
  | f :: fs, offset =>
    (f, readBytes e (f.Width / 8) (data.drop offset)) :: specFieldReads e data fs (offset + f.Width / 8)

/-- Modelled from the spec: the per-type acceptance rule for one field
value (seconds within 48 hours of now, bounded microseconds and
nanoseconds, length at most the configured maximum, exact magic match,
ignore always). -/
def fieldOk (mbs : Nat) (now : Int) (f : HeaderField) (v : Nat) : Bool :=
  match f.FType with
  | FieldType.FieldSec => decide ((toInt64 v - now).natAbs ≤ 48 * 3600)
  | FieldType.FieldUsec => decide (v ≤ 999999)
  | FieldType.FieldNsec => decide (v ≤ 999999999)
  | FieldType.FieldLength => decide (v ≤ mbs)
  | FieldType.FieldMagic => decide (v = f.MagicValue)
  | FieldType.FieldIgnore => true

/-- Modelled from the spec: a window is accepted iff every field read
passes its per-type rule. -/
def specHeaderAccepts (fmt : BlockHeaderFormat) (mbs : Nat) (now : Int) (data : List Nat) : Prop :=
  ∀ p ∈ specFieldReads fmt.ByteOrder data fmt.Fields 0, fieldOk mbs now p.1 p.2 = true

/-- Loop of the boundary scanner (source: findBlockHeader): try offsets
in increasing order, fuel counts the remaining candidate offsets. -/
def findHeaderAux (fmt : BlockHeaderFormat) (mbs : Nat) (now : Int) (data : List Nat) :
    Nat → Nat → Nat
  | 0, _ => data.length
  | fuel + 1, o =>
    if validateBlockHeader fmt mbs now (data.drop o) then o
    else findHeaderAux fmt mbs now data fuel (o + 1)

/-- The boundary scanner (source: findBlockHeader): scans offsets
0 .. length - TotalBytes (no offsets at all when the buffer is shorter
than TotalBytes) and returns the first validating offset, or the buffer
length as a not-found sentinel. -/
def findBlockHeader (fmt : BlockHeaderFormat) (mbs : Nat) (now : Int) (data : List Nat) : Nat :=
  findHeaderAux fmt mbs now data (data.length + 1 - fmt.TotalBytes) 0

/-- The width switch of the length-reporting validator of the buffered
variant: that variant is little-endian only and has cases only for
widths 16/32/64 (any other width leaves the value 0 and the offset
unchanged). -/
def readStep16 (data : List Nat) (offset w : Nat) : Option (Nat × Nat) :=
  if w = 16 then
    if offset + 2 ≤ data.length then
      some (readBytes Endianness.LittleEndian 2 (data.drop offset), offset + 2)
    else none
  else if w = 32 then
    if offset + 4 ≤ data.length then
      some (readBytes Endianness.LittleEndian 4 (data.drop offset), offset + 4)
    else none
  else if w = 64 then
    if offset + 8 ≤ data.length then
      some (readBytes Endianness.LittleEndian 8 (data.drop offset), offset + 8)
    else none
  else some (0, offset)

/-- The per-type switch of the length-reporting validator: none rejects,
some gives the running blockLength after the field (a length field
stores its own value). -/
def goFieldCheckLen (mbs : Nat) (now : Int) (f : HeaderField) (value bl : Nat) : Option Nat :=
  match f.FType with
  | FieldType.FieldSec =>
    if toInt64 value - now < -(48 * 3600) ∨ (48 * 3600 : Int) < toInt64 value - now then none
    else some bl
  | FieldType.FieldUsec => if 999999 < value then none else some bl
  | FieldType.FieldNsec => if 999999999 < value then none else some bl
  | FieldType.FieldLength => if mbs < value then none else some value
  | FieldType.FieldMagic => if value = f.MagicValue then some bl else none
  | FieldType.FieldIgnore => some bl

/-- Body of the length-reporting validator of the buffered variant
(source: validateBlockHeader returning (int, bool)).  The running
blockLength is overwritten by every length field, and again by the
field at index LengthIndex when HasLength is set. -/
def validateLenAux (LI : Nat) (HL : Bool) (mbs : Nat) (now : Int) (data : List Nat) :
    List HeaderField → Nat → Nat → Nat → Option Nat
  | [], _, _, bl => some bl
  | f :: fs, i, offset, bl =>
    match readStep16 data offset f.Width with
    | none => none
    | some (value, offset2) =>
      match goFieldCheckLen mbs now f value bl with
      | none => none
      | some bl2 =>
        let bl3 := if i = LI ∧ HL = true then value else bl2
        validateLenAux LI HL mbs now data fs (i + 1) offset2 bl3

/-- The length-reporting validator of the buffered variant: some
blockLength stands for (blockLength, true), none for (0, false). -/
def validateBlockHeaderLen (fmt : BlockHeaderFormat) (mbs : Nat) (now : Int) (data : List Nat) :
    Option Nat :=
  if data.length < fmt.TotalBytes then none
  else validateLenAux fmt.LengthIndex fmt.HasLength mbs now data fmt.Fields 0 0 0

/-- Modelled from the spec (amended): the same sequential validator
without the designated-index overwrite, so the payload length reported
is simply the value of the last length field read (0 when there is
none). -/
def validateLenLastWinsAux (mbs : Nat) (now : Int) (data : List Nat) :
    List HeaderField → Nat → Nat → Option Nat
  | [], _, bl => some bl
  | f :: fs, offset, bl =>
    match readStep16 data offset f.Width with
    | none => none
    | some (value, offset2) =>
      match goFieldCheckLen mbs now f value bl with
      | none => none
      | some bl2 => validateLenLastWinsAux mbs now data fs offset2 bl2

/-- Modelled from the spec (amended): last-length-wins validator. -/
def validateLenLastWins (fmt : BlockHeaderFormat) (mbs : Nat) (now : Int) (data : List Nat) :
    Option Nat :=
  if data.length < fmt.TotalBytes then none
  else validateLenLastWinsAux mbs now data fmt.Fields 0 0

/-- Loop of the pending-buffer boundary search (source: the scan inside
flushPendingData): first offset where the length validator accepts,
together with the reported block length. -/
def firstValidAux (fmt : BlockHeaderFormat) (mbs : Nat) (now : Int) (data : List Nat) :
    Nat → Nat → Option (Nat × Nat)
  | 0, _ => none
  | fuel + 1, o =>
    match validateBlockHeaderLen fmt mbs now (data.drop o) with
    | some blen => some (o, blen)
    | none => firstValidAux fmt mbs now data fuel (o + 1)

/-- First accepting offset in 0 .. length - TotalBytes with its block
length, or none. -/
def firstValidOffsetLen (fmt : BlockHeaderFormat) (mbs : Nat) (now : Int) (data : List Nat) :
    Option (Nat × Nat) :=
  firstValidAux fmt mbs now data (data.length + 1 - fmt.TotalBytes) 0

/-- Outcome of one flushPendingData call: keep waiting for more data,
force a rotation writing all pending bytes, or cut, writing the first
component to the old file and keeping the second for the new file. -/
inductive FlushResult where
  | wait
  | force (written : List Nat)
  | cut (written : List Nat) (rest : List Nat)
deriving DecidableEq, Repr

/-- The pending-buffer rotation decision (source: flushPendingData of
the buffered variant).  If a valid header is found, the block ends at
offset + TotalBytes + blockLength; if that end lies beyond the buffered
bytes the call waits, unless the buffer already exceeds
maxBlockSize + TotalBytes, which forces a rotation; a complete block
cuts there.  With no valid header the same size bound decides between
waiting and forcing. -/
def flushPendingData (fmt : BlockHeaderFormat) (mbs : Nat) (now : Int) (pending : List Nat) :
    FlushResult :=
  let maxScanSize := mbs + fmt.TotalBytes
  match firstValidOffsetLen fmt mbs now pending with
  | some (off, blen) =>
    let endOfBlock := off + fmt.TotalBytes + blen
    if pending.length < endOfBlock then
      if maxScanSize < pending.length then FlushResult.force pending else FlushResult.wait
    else FlushResult.cut (pending.take endOfBlock) (pending.drop endOfBlock)
  | none =>
    if maxScanSize < pending.length then FlushResult.force pending else FlushResult.wait

/-- Mutable state of the rotation engine (source: FileBuffer).  Files
are modelled by payload content: closedFiles holds, oldest first, the
bytes handed to the compressor of every file already closed (a ghost of
all produced output, unaffected by retention deletion), current those of
the open file.  activeFiles keeps the on-disk retention window as the
counters embedded in the filenames, oldest first. -/
structure FB where
  header : List Nat
  headerCaptured : Bool
  closedFiles : List (List Nat)
  current : List Nat
  activeFiles : List Nat
  fileCounter : Nat
deriving DecidableEq, Repr

/-- The engine state before the first openNewFile (Go zero values). -/
def initFB : FB :=
  { header := [], headerCaptured := false, closedFiles := [], current := [],
    activeFiles := [], fileCounter := 0 }

/-- Header capture at the top of write: on the first call with capture
configured, copy the first headerBytes bytes of the chunk (fewer if the
chunk is shorter) and mark the header captured. -/
def captureHeader (hb : Nat) (data : List Nat) (s : FB) : FB :=
  if s.headerCaptured = false ∧ 0 < hb then
    { s with header := data.take hb, headerCaptured := true }
  else s

/-- Source: openNewFile.  When the retention window is full
(length ≥ maxNumFiles) the oldest entry is popped and its file deleted
(the Go code indexes entry 0, so it would panic on an empty window;
configuration validation keeps maxNumFiles positive, making that
unreachable).  Then a file named with the current counter is created,
the counter incremented, and the captured header replayed as the first
bytes of the new file. -/
def openNewFile (hb mf : Nat) (s : FB) : FB :=
  let af := if mf ≤ s.activeFiles.length then s.activeFiles.drop 1 else s.activeFiles
  { s with
    activeFiles := af ++ [s.fileCounter]
    fileCounter := s.fileCounter + 1
    current := if s.headerCaptured = true ∧ 0 < hb then s.header else [] }

/-- Source: closeCurrentFile.  Closing flushes the compressor, so the
open file's payload becomes the payload of a finished output file. -/
def closeCurrentFile (s : FB) : FB :=
  { s with closedFiles := s.closedFiles ++ [s.current], current := [] }

/-- The rotation cut offset inside a chunk: 0 when no descriptor is
configured, otherwise the next block-header offset found in the
chunk. -/
def nextBlockOffset (fmtO : Option BlockHeaderFormat) (mbs : Nat) (now : Int)
    (data : List Nat) : Nat :=
  match fmtO with
  | none => 0
  | some fmt => findBlockHeader fmt mbs now data

/-- Source: write of the unbuffered rotation engine.  The rotation
condition compares the stat'ed compressed size of the current file with
maxFileSize; compressed size is outside this model, so the comparison
outcome rot is an input.  On rotation the chunk is split at the next
block-header offset, the first part written to the old file, the file
closed, a new one opened (replaying the header), and the remainder
written there. -/
def writeFB (hb mf : Nat) (fmtO : Option BlockHeaderFormat) (mbs : Nat) (now : Int)
    (s : FB) (ev : Bool × List Nat) : FB :=
  let rot := ev.1
  let data := ev.2
  let s1 := captureHeader hb data s
  if rot then
    let n := nextBlockOffset fmtO mbs now data
    let s2 := { s1 with current := s1.current ++ data.take n }
    let s3 := closeCurrentFile s2
    let s4 := openNewFile hb mf s3
    { s4 with current := s4.current ++ data.drop n }
  else { s1 with current := s1.current ++ data }

/-- A run of the engine: one write per chunk, each with its
size-threshold oracle. -/
def runFB (hb mf : Nat) (fmtO : Option BlockHeaderFormat) (mbs : Nat) (now : Int)
    (s : FB) (evts : List (Bool × List Nat)) : FB :=
  evts.foldl (writeFB hb mf fmtO mbs now) s

/-- All produced files, oldest first, the open one last. -/
def filesFB (s : FB) : List (List Nat) :=
  s.closedFiles ++ [s.current]

/-- Payload of the first produced file. -/
def firstFileFB (s : FB) : List Nat :=
  match s.closedFiles with
  | [] => s.current
  | f :: _ => f

/-- Concatenation of all produced payloads with the replayed header
bytes stripped from every file after the first. -/
def stripConcat (s : FB) : List Nat :=
  match s.closedFiles with
  | [] => s.current
  | f :: rest => f ++ ((rest ++ [s.current]).map (List.drop s.header.length)).flatten

/-- Result of the startup resume scan: the counters of the deleted
files, the seeded retention window, and the resumed file counter. -/
structure ResumeResult where
  deleted : List Nat
  active : List Nat
  counter : Nat
deriving DecidableEq, Repr

/-- Source: loadExistingFiles.  The directory listing yields the
counters of the files matching the naming pattern (the listing order is
arbitrary); they are sorted ascending, the excess oldest files beyond
maxNumFiles are deleted, the survivors seed the retention window, and
the counter resumes one past the highest survivor (unchanged when
nothing matched). -/
def loadExistingFiles (counters : List Nat) (mf : Nat) (counter0 : Nat) : ResumeResult :=
  let sorted := counters.insertionSort (· ≤ ·)
  let deleted := if mf < sorted.length then sorted.take (sorted.length - mf) else []
  let kept := if mf < sorted.length then sorted.drop (sorted.length - mf) else sorted
  { deleted := deleted
    active := kept
    counter := if kept.length = 0 then counter0 else kept.getLastD 0 + 1 }

/-! ### Lemmas about the pending-buffer boundary search -/

lemma firstValidAux_some (fmt : BlockHeaderFormat) (mbs : Nat) (now : Int) (data : List Nat) :
    ∀ fuel o off blen, firstValidAux fmt mbs now data fuel o = some (off, blen) →
      validateBlockHeaderLen fmt mbs now (data.drop off) = some blen := by
  intro fuel
  induction fuel with
  | zero => intro o off blen h; simp [firstValidAux] at h
  | succ n ih =>
    intro o off blen h
    rw [firstValidAux] at h
    split at h
    · next b heq =>
      obtain ⟨rfl, rfl⟩ : o = off ∧ b = blen := by
        constructor <;> [injection h with h2; skip] <;> simp_all
      exact heq
    · exact ih _ _ _ h

/-- The claim C2 states that every non-forced rotation cut writes to the
old file exactly through the end of a header-validated block whose
declared payload was fully buffered.  This is the boundary-cut branch of
flushPendingData. -/
theorem boundary_cut_ends_validated_block (fmt : BlockHeaderFormat) (mbs : Nat) (now : Int)
    (pending w r : List Nat)
    (h : flushPendingData fmt mbs now pending = FlushResult.cut w r) :
    ∃ off blen, validateBlockHeaderLen fmt mbs now (pending.drop off) = some blen ∧
      off + fmt.TotalBytes + blen ≤ pending.length ∧
      w = pending.take (off + fmt.TotalBytes + blen) ∧
      w ++ r = pending := by
  rw [flushPendingData] at h
  split at h
  · next off blen heq =>
    by_cases hlt : pending.length < off + fmt.TotalBytes + blen
    · rw [if_pos hlt] at h
      split at h <;> simp at h
    · rw [if_neg hlt] at h
      refine ⟨off, blen, firstValidAux_some fmt mbs now pending _ _ _ _ heq, by omega, ?_, ?_⟩
      · exact (FlushResult.cut.injEq _ _ _ _).mp h.symm |>.1
      · have hw := (FlushResult.cut.injEq _ _ _ _).mp h.symm
        rw [hw.1, hw.2]
        exact List.take_append_drop _ _
  · split at h <;> simp at h

/-- The claim C3 states that a forced rotation happens only once more
than maxBlockSize + TotalBytes bytes are buffered and the scan found no
valid, complete block (either no header validated at all, or the first
validated one declares a payload extending past the buffered bytes). -/
theorem forced_rotation_requires_full_scan_window (fmt : BlockHeaderFormat) (mbs : Nat)
    (now : Int) (pending w : List Nat)
    (h : flushPendingData fmt mbs now pending = FlushResult.force w) :
    mbs + fmt.TotalBytes < pending.length ∧ w = pending ∧
      (firstValidOffsetLen fmt mbs now pending = none ∨
        ∃ off blen, firstValidOffsetLen fmt mbs now pending = some (off, blen) ∧
          pending.length < off + fmt.TotalBytes + blen) := by
  rw [flushPendingData] at h
  split at h
  · next off blen heq =>
    by_cases h1 : pending.length < off + fmt.TotalBytes + blen
    · by_cases h2 : mbs + fmt.TotalBytes < pending.length
      · refine ⟨h2, ?_, Or.inr ⟨off, blen, heq, h1⟩⟩
        have hfw : FlushResult.force pending = FlushResult.force w := by
          simpa [h1, h2] using h
        injection hfw with hw
        exact hw.symm
      · exfalso; simp [h1, h2] at h
    · exfalso; simp [h1] at h
  · next heq =>
    by_cases h2 : mbs + fmt.TotalBytes < pending.length
    · refine ⟨h2, ?_, Or.inl heq⟩
      have hfw : FlushResult.force pending = FlushResult.force w := by
        simpa [h2] using h
      injection hfw with hw
      exact hw.symm
    · exfalso; simp [h2] at h

/-! ### Lemmas about the boundary scanner -/

lemma findHeaderAux_spec (fmt : BlockHeaderFormat) (mbs : Nat) (now : Int) (data : List Nat) :
    ∀ fuel o, fuel + o = data.length + 1 - fmt.TotalBytes →
      (findHeaderAux fmt mbs now data fuel o = data.length ∨
        (findHeaderAux fmt mbs now data fuel o + fmt.TotalBytes ≤ data.length ∧
          validateBlockHeader fmt mbs now (data.drop (findHeaderAux fmt mbs now data fuel o)) = true)) ∧
      (∀ o2, o ≤ o2 → o2 < o + fuel → o2 < findHeaderAux fmt mbs now data fuel o →
        validateBlockHeader fmt mbs now (data.drop o2) = false) := by
  intro fuel
  induction fuel with
  | zero =>
    intro o _
    refine ⟨Or.inl rfl, ?_⟩
    intro o2 h1 h2
    omega
  | succ n ih =>
    intro o hfuel
    rw [findHeaderAux]
    split
    · next hv =>
      refine ⟨Or.inr ⟨by omega, hv⟩, ?_⟩
      intro o2 h1 h2 h3
      omega
    · next hv =>
      have ihh := ih (o + 1) (by omega)
      refine ⟨ihh.1, ?_⟩
      intro o2 h1 h2 h3
      rcases Nat.eq_or_lt_of_le h1 with heq | hlt
      · rw [← heq]
        exact Bool.not_eq_true _ ▸ hv
      · exact ihh.2 o2 hlt (by omega) h3

/-- The claim C5 states that findBlockHeader scans candidate offsets
0 .. length - TotalBytes in increasing order and returns the smallest
validating offset, or the buffer length as a sentinel when none
validates (in particular when the buffer is shorter than TotalBytes and
no offset is tried at all). -/
theorem findBlockHeader_first_valid_offset (fmt : BlockHeaderFormat) (mbs : Nat) (now : Int)
    (data : List Nat) :
    (findBlockHeader fmt mbs now data = data.length ∨
      (findBlockHeader fmt mbs now data + fmt.TotalBytes ≤ data.length ∧
        validateBlockHeader fmt mbs now (data.drop (findBlockHeader fmt mbs now data)) = true)) ∧
    (∀ o, o + fmt.TotalBytes ≤ data.length → o < findBlockHeader fmt mbs now data →
      validateBlockHeader fmt mbs now (data.drop o) = false) := by
  have hmain := findHeaderAux_spec fmt mbs now data (data.length + 1 - fmt.TotalBytes) 0 (by omega)
  rw [findBlockHeader]
  refine ⟨hmain.1, ?_⟩
  intro o ho hlt
  exact hmain.2 o (by omega) (by omega) hlt

/-! ### Lemmas about resume and retention -/

lemma getLastD_ne_nil (t : List Nat) (a d : Nat) (h : t ≠ []) :
    t.getLastD a = t.getLastD d := by
  cases t with
  | nil => exact absurd rfl h
  | cons b u => rw [List.getLastD_cons, List.getLastD_cons]

lemma getLastD_drop (l : List Nat) (k : Nat) (h : k < l.length) (d : Nat) :
    (l.drop k).getLastD d = l.getLastD d := by
  induction l generalizing k with
  | nil => simp at h
  | cons a t ih =>
    cases k with
    | zero => rfl
    | succ k2 =>
      have hk : k2 < t.length := by simpa using h
      have hne : t ≠ [] := by
        intro hnil
        rw [hnil] at hk
        simp at hk
      calc ((a :: t).drop (k2 + 1)).getLastD d = (t.drop k2).getLastD d := rfl
        _ = t.getLastD d := ih k2 hk
        _ = t.getLastD a := getLastD_ne_nil t d a hne
        _ = (a :: t).getLastD d := by rw [List.getLastD_cons]

/-- The claim C8 states that resuming over N pattern-matching files with
ascending counters and a smaller retention limit M deletes exactly the
N - M smallest-counter files, seeds the retention window with the M
survivors in ascending order, and resumes the counter one past the
largest counter. -/
theorem resume_trims_smallest_and_resumes_counter (cs : List Nat) (M c0 : Nat)
    (hsort : cs.Sorted (· < ·)) (hM : 0 < M) (hMN : M < cs.length) :
    (loadExistingFiles cs M c0).deleted = cs.take (cs.length - M) ∧
    (loadExistingFiles cs M c0).active = cs.drop (cs.length - M) ∧
    (loadExistingFiles cs M c0).active.length = M ∧
    (loadExistingFiles cs M c0).counter = cs.getLastD 0 + 1 := by
  have hself : cs.insertionSort (· ≤ ·) = cs :=
    List.Sorted.insertionSort_eq (hsort.imp le_of_lt)
  have hkeptlen : (cs.drop (cs.length - M)).length = M := by
    rw [List.length_drop]
    omega
  refine ⟨?_, ?_, ?_, ?_⟩
  · simp only [loadExistingFiles, hself, if_pos hMN]
  · simp only [loadExistingFiles, hself, if_pos hMN]
  · simp only [loadExistingFiles, hself, if_pos hMN]
    exact hkeptlen
  · simp only [loadExistingFiles, hself, if_pos hMN]
    rw [if_neg (by omega : ¬ (cs.drop (cs.length - M)).length = 0)]
    rw [getLastD_drop cs (cs.length - M) (by omega) 0]

/-- A single openNewFile keeps the retention window within the limit
when it starts within the limit and the limit is positive. -/
lemma openNewFile_active_le (hb mf : Nat) (s : FB) (hmf : 0 < mf)
    (hs : s.activeFiles.length ≤ mf) :
    (openNewFile hb mf s).activeFiles.length ≤ mf := by
  simp only [openNewFile]
  split
  · next hge =>
    simp only [List.length_append, List.length_drop, List.length_cons, List.length_nil]
    omega
  · next hlt =>
    simp only [List.length_append, List.length_cons, List.length_nil]
    omega

lemma writeFB_active_le (hb mf mbs : Nat) (fmtO : Option BlockHeaderFormat) (now : Int)
    (s : FB) (ev : Bool × List Nat) (hmf : 0 < mf) (hs : s.activeFiles.length ≤ mf) :
    (writeFB hb mf fmtO mbs now s ev).activeFiles.length ≤ mf := by
  simp only [writeFB]
  split
  · exact openNewFile_active_le hb mf _ hmf (by simp [closeCurrentFile, captureHeader]; split <;> simp [hs])
  · simp only [captureHeader]
    split <;> simpa using hs

lemma runFB_active_le (hb mf mbs : Nat) (fmtO : Option BlockHeaderFormat) (now : Int)
    (evts : List (Bool × List Nat)) (s : FB) (hmf : 0 < mf)
    (hs : s.activeFiles.length ≤ mf) :
    (runFB hb mf fmtO mbs now s evts).activeFiles.length ≤ mf := by
  induction evts generalizing s with
  | nil => exact hs
  | cons ev rest ih =>
    exact ih _ (writeFB_active_le hb mf mbs fmtO now s ev hmf hs)

/-- The claim C7 states the retention invariant: starting from any
settled state within the limit, the window stays within maxNumFiles
across every operation (openNewFile evicting the oldest entry first
whenever the window is already full, closeCurrentFile, every writeChunk
of a run, and the resume seeding itself stays within the limit). -/
theorem retention_bound (hb mf mbs c0 : Nat) (fmtO : Option BlockHeaderFormat) (now : Int)
    (s : FB) (cs : List Nat) (evts : List (Bool × List Nat))
    (hmf : 0 < mf) (hs : s.activeFiles.length ≤ mf) :
    (openNewFile hb mf s).activeFiles.length ≤ mf ∧
    (mf ≤ s.activeFiles.length →
      (openNewFile hb mf s).activeFiles = s.activeFiles.drop 1 ++ [s.fileCounter]) ∧
    (closeCurrentFile s).activeFiles.length ≤ mf ∧
    (loadExistingFiles cs mf c0).active.length ≤ mf ∧
    (runFB hb mf fmtO mbs now s evts).activeFiles.length ≤ mf := by
  refine ⟨openNewFile_active_le hb mf s hmf hs, ?_, hs, ?_, runFB_active_le hb mf mbs fmtO now evts s hmf hs⟩
  · intro hfull
    simp [openNewFile, if_pos hfull]
  · simp only [loadExistingFiles]
    split
    · next hgt =>
      simp only [List.length_drop]
      omega
    · next hle =>
      have : (cs.insertionSort (· ≤ ·)).length = cs.length := by
        exact List.Perm.length_eq (List.perm_insertionSort _ cs)
      omega

/-! ### Lemmas about the boolean validator -/

lemma readStep_valid (e : Endianness) (data : List Nat) (offset w : Nat)
    (hw : w = 8 ∨ w = 16 ∨ w = 32 ∨ w = 64) (hb : offset + w / 8 ≤ data.length) :
    readStep e data offset w = some (readBytes e (w / 8) (data.drop offset), offset + w / 8) := by
  rcases hw with rfl | rfl | rfl | rfl
  · have h1 : offset + 1 ≤ data.length := by simpa using hb
    simp [readStep, h1]
  · have h1 : offset + 2 ≤ data.length := by simpa using hb
    simp [readStep, h1]
  · have h1 : offset + 4 ≤ data.length := by simpa using hb
    simp [readStep, h1]
  · have h1 : offset + 8 ≤ data.length := by simpa using hb
    simp [readStep, h1]

lemma goFieldCheck_eq_fieldOk (mbs : Nat) (now : Int) (f : HeaderField) (v : Nat) :
    goFieldCheck mbs now f v = fieldOk mbs now f v := by
  cases hft : f.FType <;> simp only [goFieldCheck, fieldOk, hft]
  · rw [decide_eq_decide]
    omega
  · rw [decide_eq_decide]
    omega
  · rw [decide_eq_decide]
    omega
  · rw [decide_eq_decide]
    omega

lemma validateHeaderAux_iff (e : Endianness) (mbs : Nat) (now : Int) (data : List Nat) :
    ∀ (fields : List HeaderField) (offset : Nat),
      (∀ f ∈ fields, f.Width = 8 ∨ f.Width = 16 ∨ f.Width = 32 ∨ f.Width = 64) →
      offset + sumBytes fields ≤ data.length →
      (validateHeaderAux e mbs now data fields offset = true ↔
        ∀ p ∈ specFieldReads e data fields offset, fieldOk mbs now p.1 p.2 = true) := by
  intro fields
  induction fields with
  | nil =>
    intro offset _ _
    simp [validateHeaderAux, specFieldReads]
  | cons f fs ih =>
    intro offset hw hlen
    have hwf := hw f (List.mem_cons_self f fs)
    have hsum : sumBytes (f :: fs) = f.Width / 8 + sumBytes fs := by
      simp [sumBytes]
    have hb : offset + f.Width / 8 ≤ data.length := by omega
    rw [validateHeaderAux, readStep_valid e data offset f.Width hwf hb]
    show (if goFieldCheck mbs now f (readBytes e (f.Width / 8) (data.drop offset)) then
        validateHeaderAux e mbs now data fs (offset + f.Width / 8) else false) = true ↔ _
    rw [specFieldReads, List.forall_mem_cons, goFieldCheck_eq_fieldOk]
    cases hfo : fieldOk mbs now f (readBytes e (f.Width / 8) (data.drop offset)) with
    | false =>
      simp only [hfo, if_false, Bool.false_eq_true, false_iff, not_and]
      intro hcontra
      simp at hcontra
    | true =>
      simp only [hfo, if_true, true_and]
      exact ih (offset + f.Width / 8) (fun g hg => hw g (List.mem_cons_of_mem f hg)) (by omega)

/-- The claim C4 states that the validator reads the fields strictly in
declared order, consuming Width/8 bytes each per the configured byte
order (1-byte reads being order-independent), and accepts exactly when
every field passes its per-type rule, the first failure rejecting. -/
theorem validateBlockHeader_matches_spec (fmt : BlockHeaderFormat) (mbs : Nat) (now : Int)
    (data : List Nat)
    (hw : ∀ f ∈ fmt.Fields, f.Width = 8 ∨ f.Width = 16 ∨ f.Width = 32 ∨ f.Width = 64)
    (htb : fmt.TotalBytes = sumBytes fmt.Fields)
    (hlen : fmt.TotalBytes ≤ data.length) :
    (validateBlockHeader fmt mbs now data = true ↔ specHeaderAccepts fmt mbs now data) ∧
    (∀ l : List Nat, readBytes Endianness.LittleEndian 1 l = readBytes Endianness.BigEndian 1 l) := by
  constructor
  · rw [validateBlockHeader, if_neg (by omega)]
    exact validateHeaderAux_iff fmt.ByteOrder mbs now data fmt.Fields 0 hw (by omega)
  · intro l
    cases l <;> simp [readBytes]

/-! ### Lemmas about the length-field index -/

/-- Placeholder field used as the default of list lookups. -/
def dummyField : HeaderField :=
  { Width := 0, FType := FieldType.FieldIgnore, MagicValue := 0, Signed := false }

/-- When HasLength is set, LengthIndex points inside the field list, at
a length field, and no later field is a length field: the index tracks
the last length field. -/
def lastLenProp (fmt : BlockHeaderFormat) : Prop :=
  fmt.HasLength = true →
    fmt.LengthIndex < fmt.Fields.length ∧
    (fmt.Fields.getD fmt.LengthIndex dummyField).FType = FieldType.FieldLength ∧
    ∀ j, fmt.LengthIndex < j → j < fmt.Fields.length →
      (fmt.Fields.getD j dummyField).FType ≠ FieldType.FieldLength

lemma pushField_lastLenProp (acc : BlockHeaderFormat) (f : HeaderField)
    (h : lastLenProp acc) : lastLenProp (pushField acc f) := by
  intro hhl
  have hFields : (pushField acc f).Fields = acc.Fields ++ [f] := rfl
  have hlen : (pushField acc f).Fields.length = acc.Fields.length + 1 := by
    simp [pushField]
  by_cases hlf : f.FType = FieldType.FieldLength
  · have hLI : (pushField acc f).LengthIndex = acc.Fields.length := by
      simp [pushField, hlf]
    refine ⟨by rw [hLI, hlen]; omega, ?_, ?_⟩
    · rw [hFields, hLI, List.getD_append_right acc.Fields [f] dummyField acc.Fields.length (le_refl _)]
      simpa using hlf
    · intro j h1 h2
      rw [hLI] at h1
      rw [hlen] at h2
      omega
  · have hLI : (pushField acc f).LengthIndex = acc.LengthIndex := by
      simp [pushField, hlf]
    have hHL : acc.HasLength = true := by
      simpa [pushField, hlf] using hhl
    obtain ⟨hb, hty, hafter⟩ := h hHL
    refine ⟨by rw [hLI, hlen]; omega, ?_, ?_⟩
    · rw [hFields, hLI, List.getD_append _ _ _ _ hb]
      exact hty
    · intro j h1 h2
      rw [hLI] at h1
      rw [hlen] at h2
      rw [hFields]
      by_cases hj : j < acc.Fields.length
      · rw [List.getD_append _ _ _ _ hj]
        exact hafter j h1 hj
      · have hje : j = acc.Fields.length := by omega
        subst hje
        rw [List.getD_append_right _ _ _ _ (le_refl _)]
        simpa using hlf

lemma buildFormat_lastLenProp : ∀ (ts : List RawToken) (acc res : BlockHeaderFormat),
    buildFormat ts acc = some res → lastLenProp acc → lastLenProp res := by
  intro ts
  induction ts with
  | nil =>
    intro acc res h hp
    rw [buildFormat] at h
    injection h with h2
    rw [← h2]
    exact hp
  | cons t ts2 ih =>
    intro acc res h hp
    rw [buildFormat] at h
    cases hc : compileField t with
    | none => rw [hc] at h; exact absurd h (by simp)
    | some f => rw [hc] at h; exact ih _ _ h (pushField_lastLenProp acc f hp)

lemma parse_lastLenProp (format : String) (e : Endianness) (fmt : BlockHeaderFormat)
    (h : parseBlockHeaderFormat format e = some fmt) : lastLenProp fmt := by
  simp only [parseBlockHeaderFormat] at h
  by_cases hemp : (tokenScan format.data).isEmpty
  · rw [if_pos hemp] at h
    exact absurd h (by simp)
  · rw [if_neg hemp] at h
    refine buildFormat_lastLenProp _ _ _ h ?_
    intro hh
    simp [initFormat] at hh

lemma validateLenAux_eq_lastWins (LI : Nat) (HL : Bool) (mbs : Nat) (now : Int)
    (data : List Nat) :
    ∀ (fields : List HeaderField) (i offset bl : Nat),
      (∀ j, i + j = LI → HL = true → j < fields.length →
        (fields.getD j dummyField).FType = FieldType.FieldLength) →
      validateLenAux LI HL mbs now data fields i offset bl =
        validateLenLastWinsAux mbs now data fields offset bl := by
  intro fields
  induction fields with
  | nil => intro i offset bl _; rfl
  | cons f fs ih =>
    intro i offset bl hj
    have hshift : ∀ j, (i + 1) + j = LI → HL = true → j < fs.length →
        (fs.getD j dummyField).FType = FieldType.FieldLength := by
      intro j ha hb hc
      have := hj (j + 1) (by omega) hb (by simpa using Nat.succ_lt_succ hc)
      simpa using this
    cases hr : readStep16 data offset f.Width with
    | none => simp [validateLenAux, validateLenLastWinsAux, hr]
    | some vo =>
      obtain ⟨value, offset2⟩ := vo
      cases hd : goFieldCheckLen mbs now f value bl with
      | none => simp [validateLenAux, validateLenLastWinsAux, hr, hd]
      | some bl2 =>
        simp only [validateLenAux, validateLenLastWinsAux, hr, hd]
        by_cases hil : i = LI ∧ HL = true
        · have hfl : f.FType = FieldType.FieldLength := by
            have := hj 0 (by omega) hil.2 (by simp)
            simpa using this
          have hbl2 : bl2 = value := by
            simp only [goFieldCheckLen, hfl] at hd
            split at hd
            · exact absurd hd (by simp)
            · injection hd with h2; exact h2.symm
          simp only [if_pos hil]
          rw [hbl2]
          exact ih (i + 1) offset2 value hshift
        · simp only [if_neg hil]
          exact ih (i + 1) offset2 bl2 hshift

/-- The claim C6 (amended) states that when more than one field is typed
length, the last one encountered is honored: the parser's designated
LengthIndex points at the last length field (nothing after it is a
length field), and consequently the length-reporting validator of the
buffered variant coincides with the last-length-wins reading, so the
payload length it reports is the value read from the last length
field. -/
theorem lengthIndex_last_wins (format : String) (e : Endianness) (fmt : BlockHeaderFormat)
    (h : parseBlockHeaderFormat format e = some fmt) :
    (fmt.HasLength = true →
      fmt.LengthIndex < fmt.Fields.length ∧
      (fmt.Fields.getD fmt.LengthIndex dummyField).FType = FieldType.FieldLength ∧
      ∀ j, fmt.LengthIndex < j → j < fmt.Fields.length →
        (fmt.Fields.getD j dummyField).FType ≠ FieldType.FieldLength) ∧
    (∀ mbs now data, validateBlockHeaderLen fmt mbs now data =
      validateLenLastWins fmt mbs now data) := by
  have hp := parse_lastLenProp format e fmt h
  refine ⟨hp, ?_⟩
  intro mbs now data
  rw [validateBlockHeaderLen, validateLenLastWins]
  by_cases hl : data.length < fmt.TotalBytes
  · rw [if_pos hl, if_pos hl]
  · rw [if_neg hl, if_neg hl]
    apply validateLenAux_eq_lastWins
    intro j hij hHL hjlen
    obtain ⟨hb, hty, _⟩ := hp hHL
    have hje : j = fmt.LengthIndex := by omega
    rw [hje]
    exact hty

/-- The claim C6 as frozen says the first length field is honored; on
the format with two length fields the parser's designated index is 1
(the second), and on the window whose first length field reads 1 and
second reads 2 the validator reports payload 2, the value of the last
length field. -/
theorem lengthIndex_first_wins_counterexample :
    (parseBlockHeaderFormat "<u16:length><u16:length>" Endianness.LittleEndian).map
      (fun f => f.LengthIndex) = some 1 ∧
    (parseBlockHeaderFormat "<u16:length><u16:length>" Endianness.LittleEndian).bind
      (fun f => validateBlockHeaderLen f 100 0 [1, 0, 2, 0]) = some 2 := by
  constructor
  · decide
  · decide

/-! ### Lemmas about token scanning and parsing -/

lemma buildFormat_all_some : ∀ (ts : List RawToken) (acc : BlockHeaderFormat),
    (∀ t ∈ ts, (compileField t).isSome = true) →
    ∃ res, buildFormat ts acc = some res ∧
      res.Fields = acc.Fields ++ ts.filterMap compileField ∧
      res.ByteOrder = acc.ByteOrder := by
  intro ts
  induction ts with
  | nil =>
    intro acc _
    exact ⟨acc, rfl, by simp, rfl⟩
  | cons t ts2 ih =>
    intro acc hall
    have ht := hall t (List.mem_cons_self t ts2)
    cases hc : compileField t with
    | none => rw [hc] at ht; simp at ht
    | some f =>
      obtain ⟨res, hres, hfields, horder⟩ :=
        ih (pushField acc f) (fun u hu => hall u (List.mem_cons_of_mem t hu))
      refine ⟨res, ?_, ?_, ?_⟩
      · rw [buildFormat, hc]
        exact hres
      · rw [hfields, List.filterMap_cons, hc]
        simp [pushField]
      · rw [horder]
        rfl

/-- The claim C10 (amended) states that parsing considers only the
substrings found by the left-to-right non-overlapping scan for the
token pattern and ignores the characters outside matches; whenever the
scan yields at least one match and every match has a valid width and a
recognized type, parsing succeeds and the field list is exactly the
compiled match sequence in order.  (The original claim fails because a
match's type portion can absorb adjacent malformed text containing an
opening angle, as the counterexample shows.) -/
theorem parse_ignores_nontoken_text (format : String) (e : Endianness)
    (h1 : tokenScan format.data ≠ [])
    (h2 : ∀ t ∈ tokenScan format.data, (compileField t).isSome = true) :
    ∃ fmt, parseBlockHeaderFormat format e = some fmt ∧
      fmt.Fields = (tokenScan format.data).filterMap compileField ∧
      fmt.ByteOrder = e := by
  obtain ⟨res, hres, hfields, horder⟩ := buildFormat_all_some (tokenScan format.data) (initFormat e) h2
  refine ⟨res, ?_, ?_, ?_⟩
  · simp only [parseBlockHeaderFormat]
    rw [if_neg (by simpa [List.isEmpty_iff] using h1)]
    exact hres
  · rw [hfields]
    rfl
  · rw [horder]
    rfl

/-- The claim C10 as frozen says any string containing a well-formed
token parses successfully regardless of surrounding non-token text.
The string below is malformed non-token text followed by the
well-formed token of an 8-bit ignore field, yet it fails to parse: the
regex type group absorbs the leading fragment into one larger match
with the unrecognized type text. -/
theorem token_absorption_counterexample :
    parseBlockHeaderFormat "<u8:<u8>" Endianness.LittleEndian = none ∧
    "<u8:<u8>" = "<u8:" ++ "<u8>" ∧
    (parseBlockHeaderFormat "<u8>" Endianness.LittleEndian).isSome = true := by
  refine ⟨by decide, rfl, by decide⟩

/-! ### The rotation-engine invariant -/

/-- Invariant carried along a run: the stripped concatenation equals the
chunks consumed so far; the open file and every closed file after the
first start with the captured header; before capture the header is
empty, and with capture configured no rotation can have happened yet;
a set captured flag implies capture was configured. -/
def InvFB (hb : Nat) (inputs : List (List Nat)) (s : FB) : Prop :=
  stripConcat s = inputs.flatten ∧
  (s.closedFiles ≠ [] → ∃ t, s.current = s.header ++ t) ∧
  (∀ f ∈ s.closedFiles.drop 1, ∃ t, f = s.header ++ t) ∧
  (s.headerCaptured = false → s.header = [] ∧ (0 < hb → s.closedFiles = [])) ∧
  (s.headerCaptured = true → 0 < hb)

lemma stripConcat_only (a b : FB) (hc : a.closedFiles = b.closedFiles)
    (hcur : a.current = b.current) (hh : a.header = b.header) :
    stripConcat a = stripConcat b := by
  rw [stripConcat, stripConcat, hc, hcur, hh]

lemma stripConcat_append_current (s : FB) (d : List Nat)
    (h2 : s.closedFiles ≠ [] → ∃ t, s.current = s.header ++ t) :
    stripConcat { s with current := s.current ++ d } = stripConcat s ++ d := by
  cases hcf : s.closedFiles with
  | nil => simp [stripConcat, hcf]
  | cons f rest =>
    obtain ⟨t, ht⟩ := h2 (by rw [hcf]; simp)
    simp only [stripConcat, hcf, ht, List.map_append, List.map_cons, List.map_nil,
      List.flatten_append, List.flatten_cons, List.flatten_nil, List.append_nil,
      List.append_assoc, List.drop_left]

lemma stripConcat_close (s : FB) :
    stripConcat (closeCurrentFile s) = stripConcat s := by
  cases hcf : s.closedFiles with
  | nil => simp [stripConcat, closeCurrentFile, hcf]
  | cons f rest =>
    simp [stripConcat, closeCurrentFile, hcf, List.map_append, List.flatten_append]

lemma stripConcat_set_current_short (s : FB) (c0 : List Nat)
    (hc : c0 = s.header ∨ c0 = []) (hcf : s.closedFiles ≠ []) :
    stripConcat { s with current := c0 } = stripConcat { s with current := [] } := by
  cases hcfe : s.closedFiles with
  | nil => exact absurd hcfe hcf
  | cons f rest =>
    rcases hc with rfl | rfl
    · simp [stripConcat, hcfe, List.map_append, List.flatten_append, List.drop_length]
    · rfl

lemma captureHeader_false (hb : Nat) (d : List Nat) (s : FB)
    (h : (captureHeader hb d s).headerCaptured = false) :
    hb = 0 ∨ s.headerCaptured = true := by
  rw [captureHeader] at h
  split at h
  · simp at h
  · next hcond =>
    by_cases hcap : s.headerCaptured = true
    · exact Or.inr hcap
    · left
      by_contra hne
      exact hcond ⟨by simpa using hcap, by omega⟩

lemma captureHeader_inv (hb : Nat) (inputs : List (List Nat)) (d : List Nat) (s : FB)
    (h : InvFB hb inputs s) : InvFB hb inputs (captureHeader hb d s) := by
  obtain ⟨h1, h2, h3, h4, h5⟩ := h
  rw [captureHeader]
  split
  · next hcond =>
    have hcf : s.closedFiles = [] := (h4 hcond.1).2 hcond.2
    refine ⟨?_, ?_, ?_, ?_, ?_⟩
    · have hstr : stripConcat s = s.current := by simp [stripConcat, hcf]
      simpa [stripConcat, hcf] using (hstr ▸ h1)
    · intro hne
      simp [hcf] at hne
    · intro f hf
      simp [hcf] at hf
    · intro hfalse
      simp at hfalse
    · intro _
      exact hcond.2
  · exact ⟨h1, h2, h3, h4, h5⟩

lemma writeFB_inv (hb mf mbs : Nat) (fmtO : Option BlockHeaderFormat) (now : Int)
    (s : FB) (rot : Bool) (d : List Nat) (inputs : List (List Nat))
    (h : InvFB hb inputs s) :
    InvFB hb (inputs ++ [d]) (writeFB hb mf fmtO mbs now s (rot, d)) := by
  obtain ⟨h1, h2, h3, h4, h5⟩ := captureHeader_inv hb inputs d s h
  cases rot with
  | false =>
    have hred : writeFB hb mf fmtO mbs now s (false, d) =
        { captureHeader hb d s with current := (captureHeader hb d s).current ++ d } := rfl
    rw [hred]
    refine ⟨?_, ?_, ?_, ?_, ?_⟩
    · rw [stripConcat_append_current _ d h2, h1]
      simp
    · intro hne
      obtain ⟨t, ht⟩ := h2 (by simpa using hne)
      exact ⟨t ++ d, by simp only [ht, List.append_assoc]⟩
    · intro f hf
      exact h3 f (by simpa using hf)
    · intro hfalse
      exact h4 (by simpa using hfalse)
    · intro hcap
      exact h5 (by simpa using hcap)
  | true =>
    set s1 := captureHeader hb d s with hs1
    set n := nextBlockOffset fmtO mbs now d with hn
    set s2 : FB := { s1 with current := s1.current ++ d.take n } with hs2
    set s3 := closeCurrentFile s2 with hs3
    set s4 := openNewFile hb mf s3 with hs4
    have hred : writeFB hb mf fmtO mbs now s (true, d) =
        { s4 with current := s4.current ++ d.drop n } := rfl
    rw [hred]
    have hs3c : s3.closedFiles = s1.closedFiles ++ [s1.current ++ d.take n] := rfl
    have hs3cur : s3.current = [] := rfl
    have hs3h : s3.header = s1.header := rfl
    have hs4c : s4.closedFiles = s3.closedFiles := rfl
    have hs4h : s4.header = s1.header := rfl
    have hs4cap : s4.headerCaptured = s1.headerCaptured := rfl
    have hs4cur : s4.current = if s1.headerCaptured = true ∧ 0 < hb then s1.header else [] := rfl
    have hcur0 : ∃ t, s4.current = s1.header ++ t := by
      rw [hs4cur]
      split
      · exact ⟨[], by simp⟩
      · next hns =>
        have hhdr : s1.header = [] := by
          by_cases hcap : s1.headerCaptured = true
          · exact absurd ⟨hcap, h5 hcap⟩ hns
          · exact (h4 (by simpa using hcap)).1
        simp [hhdr]
    have e1 : stripConcat { s4 with current := s4.current ++ d.drop n } =
        stripConcat s4 ++ d.drop n := by
      apply stripConcat_append_current s4 (d.drop n)
      intro _
      obtain ⟨t, ht⟩ := hcur0
      exact ⟨t, by rw [ht, hs4h]⟩
    have hne3 : s3.closedFiles ≠ [] := by
      rw [hs3c]
      simp
    have e2 : stripConcat s4 = stripConcat s3 := by
      calc stripConcat s4 = stripConcat { s3 with current := s4.current } :=
            stripConcat_only _ _ hs4c rfl (by rw [hs4h, hs3h])
        _ = stripConcat { s3 with current := [] } := by
            apply stripConcat_set_current_short s3 s4.current ?_ hne3
            rw [hs4cur]
            split
            · exact Or.inl (by rw [hs3h])
            · exact Or.inr rfl
        _ = stripConcat s3 := stripConcat_only _ _ rfl hs3cur.symm rfl
    have e3 : stripConcat s3 = stripConcat s2 := stripConcat_close s2
    have e4 : stripConcat s2 = stripConcat s1 ++ d.take n :=
      stripConcat_append_current s1 (d.take n) h2
    refine ⟨?_, ?_, ?_, ?_, ?_⟩
    · rw [e1, e2, e3, e4, h1, List.append_assoc, List.take_append_drop]
      simp
    · intro _
      obtain ⟨t, ht⟩ := hcur0
      refine ⟨t ++ d.drop n, ?_⟩
      show s4.current ++ d.drop n = s4.header ++ (t ++ d.drop n)
      rw [ht, hs4h, List.append_assoc]
    · intro f hf
      have hf2 : f ∈ (s1.closedFiles ++ [s1.current ++ d.take n]).drop 1 := by
        have : ({ s4 with current := s4.current ++ d.drop n } : FB).closedFiles =
            s1.closedFiles ++ [s1.current ++ d.take n] := by rw [show ({ s4 with current := s4.current ++ d.drop n } : FB).closedFiles = s4.closedFiles from rfl, hs4c, hs3c]
        rwa [this] at hf
      have hhead : ({ s4 with current := s4.current ++ d.drop n } : FB).header = s1.header := by
        rw [show ({ s4 with current := s4.current ++ d.drop n } : FB).header = s4.header from rfl, hs4h]
      rw [hhead]
      cases hcf1 : s1.closedFiles with
      | nil =>
        rw [hcf1] at hf2
        simp at hf2
      | cons g gs =>
        rw [hcf1] at hf2
        simp only [List.cons_append, List.drop_succ_cons, List.drop_zero] at hf2
        rcases List.mem_append.mp hf2 with hmem | hmem
        · exact h3 f (by rw [hcf1]; simpa using hmem)
        · have hfe : f = s1.current ++ d.take n := by simpa using hmem
          obtain ⟨t, ht⟩ := h2 (by rw [hcf1]; simp)
          exact ⟨t ++ d.take n, by rw [hfe, ht, List.append_assoc]⟩
    · intro hfalse
      have hfalse1 : s1.headerCaptured = false := by simpa using hfalse
      constructor
      · show s4.header = []
        rw [hs4h]
        exact (h4 hfalse1).1
      · intro hpos
        rcases captureHeader_false hb d s (by rw [← hs1]; exact hfalse1) with hhb0 | hcap
        · omega
        · exfalso
          have hs1cap : s1.headerCaptured = true := by
            rw [hs1, captureHeader]
            split
            · rfl
            · simpa using hcap
          rw [hs1cap] at hfalse1
          exact absurd hfalse1 (by simp)
    · intro hcap
      exact h5 (by simpa using hcap)

lemma runFB_inv (hb mf mbs : Nat) (fmtO : Option BlockHeaderFormat) (now : Int) :
    ∀ (evts : List (Bool × List Nat)) (s : FB) (inputs : List (List Nat)),
      InvFB hb inputs s →
      InvFB hb (inputs ++ evts.map Prod.snd) (runFB hb mf fmtO mbs now s evts) := by
  intro evts
  induction evts with
  | nil => intro s inputs h; simpa [runFB] using h
  | cons ev rest ih =>
    intro s inputs h
    obtain ⟨rot, d⟩ := ev
    have hstep := writeFB_inv hb mf mbs fmtO now s rot d inputs h
    have := ih (writeFB hb mf fmtO mbs now s (rot, d)) (inputs ++ [d]) hstep
    simpa [runFB, List.append_assoc] using this

lemma initFB_inv (hb mf : Nat) : InvFB hb [] (openNewFile hb mf initFB) := by
  refine ⟨?_, ?_, ?_, ?_, ?_⟩
  · simp [stripConcat, openNewFile, initFB]
  · intro hne
    simp [openNewFile, initFB] at hne
  · intro f hf
    simp [openNewFile, initFB] at hf
  · intro _
    simp [openNewFile, initFB]
  · intro hcap
    simp [openNewFile, initFB] at hcap

/-- The claim C1 states the round-trip property: with no block-header
descriptor configured, whatever the per-chunk rotation decisions, the
bytes handed to the per-file compressors, in file order, reassemble the
input stream exactly once the replayed header bytes are stripped from
every file after the first. -/
theorem roundTrip_write_partition (hb mf mbs : Nat) (now : Int)
    (evts : List (Bool × List Nat)) :
    stripConcat (runFB hb mf none mbs now (openNewFile hb mf initFB) evts) =
      (evts.map Prod.snd).flatten := by
  have := runFB_inv hb mf mbs none now evts (openNewFile hb mf initFB) [] (initFB_inv hb mf)
  simpa using this.1

lemma writeFB_header_stable (hb mf mbs : Nat) (fmtO : Option BlockHeaderFormat) (now : Int)
    (s : FB) (ev : Bool × List Nat) (hcap : s.headerCaptured = true) :
    (writeFB hb mf fmtO mbs now s ev).header = s.header ∧
    (writeFB hb mf fmtO mbs now s ev).headerCaptured = true := by
  obtain ⟨rot, d⟩ := ev
  have hcs : captureHeader hb d s = s := by
    rw [captureHeader, if_neg]
    intro hcontra
    rw [hcap] at hcontra
    exact absurd hcontra.1 (by simp)
  cases rot with
  | false =>
    have hred : writeFB hb mf fmtO mbs now s (false, d) =
        { captureHeader hb d s with current := (captureHeader hb d s).current ++ d } := rfl
    rw [hred, hcs]
    exact ⟨rfl, hcap⟩
  | true =>
    have hred : writeFB hb mf fmtO mbs now s (true, d) =
        (let s1 := captureHeader hb d s
        let n := nextBlockOffset fmtO mbs now d
        let s4 := openNewFile hb mf (closeCurrentFile { s1 with current := s1.current ++ d.take n })
        { s4 with current := s4.current ++ d.drop n }) := rfl
    rw [hred, hcs]
    exact ⟨rfl, hcap⟩

lemma runFB_header_stable (hb mf mbs : Nat) (fmtO : Option BlockHeaderFormat) (now : Int) :
    ∀ (evts : List (Bool × List Nat)) (s : FB), s.headerCaptured = true →
      (runFB hb mf fmtO mbs now s evts).header = s.header ∧
      (runFB hb mf fmtO mbs now s evts).headerCaptured = true := by
  intro evts
  induction evts with
  | nil => intro s h; exact ⟨rfl, h⟩
  | cons ev rest ih =>
    intro s h
    have hstep := writeFB_header_stable hb mf mbs fmtO now s ev h
    have := ih (writeFB hb mf fmtO mbs now s ev) hstep.2
    exact ⟨by rw [show runFB hb mf fmtO mbs now s (ev :: rest) =
      runFB hb mf fmtO mbs now (writeFB hb mf fmtO mbs now s ev) rest from rfl, this.1, hstep.1],
      by rw [show runFB hb mf fmtO mbs now s (ev :: rest) =
        runFB hb mf fmtO mbs now (writeFB hb mf fmtO mbs now s ev) rest from rfl]; exact this.2⟩

lemma writeFB_first_capture (hb mf mbs : Nat) (fmtO : Option BlockHeaderFormat) (now : Int)
    (s : FB) (rot : Bool) (d : List Nat) (hcap : s.headerCaptured = false) (hhb : 0 < hb) :
    (writeFB hb mf fmtO mbs now s (rot, d)).header = d.take hb ∧
    (writeFB hb mf fmtO mbs now s (rot, d)).headerCaptured = true := by
  have hcs : captureHeader hb d s =
      { s with header := d.take hb, headerCaptured := true } := by
    rw [captureHeader, if_pos ⟨hcap, hhb⟩]
  have hstable := writeFB_header_stable hb mf mbs fmtO now
    { s with header := d.take hb, headerCaptured := true } (rot, d) (by simp)
  have hsame : writeFB hb mf fmtO mbs now s (rot, d) =
      writeFB hb mf fmtO mbs now { s with header := d.take hb, headerCaptured := true } (rot, d) := by
    cases rot with
    | false =>
      show ({ captureHeader hb d s with
          current := (captureHeader hb d s).current ++ d } : FB) = _
      rw [hcs]
      have : captureHeader hb d { s with header := d.take hb, headerCaptured := true } =
          { s with header := d.take hb, headerCaptured := true } := by
        rw [captureHeader, if_neg]
        intro hcontra
        simp at hcontra
      show _ = ({ captureHeader hb d { s with header := d.take hb, headerCaptured := true } with
          current := (captureHeader hb d { s with header := d.take hb, headerCaptured := true }).current ++ d } : FB)
      rw [this]
    | true =>
      have : captureHeader hb d { s with header := d.take hb, headerCaptured := true } =
          { s with header := d.take hb, headerCaptured := true } := by
        rw [captureHeader, if_neg]
        intro hcontra
        simp at hcontra
      show writeFB hb mf fmtO mbs now s (true, d) = _
      rw [writeFB, writeFB]
      simp only [this, hcs]
  rw [hsame]
  have hh : ({ s with header := d.take hb, headerCaptured := true } : FB).header = d.take hb := rfl
  exact ⟨by rw [hstable.1, hh], hstable.2⟩

lemma stripConcat_first (s : FB) : ∃ t, stripConcat s = firstFileFB s ++ t := by
  cases hcf : s.closedFiles with
  | nil => exact ⟨[], by simp [stripConcat, firstFileFB, hcf]⟩
  | cons f rest =>
    refine ⟨((rest ++ [s.current]).map (List.drop s.header.length)).flatten, ?_⟩
    simp [stripConcat, firstFileFB, hcf]

/-- The claim C9 states that with capture configured (headerBytes
positive) the captured flag becomes true on the very first write,
capturing the first headerBytes bytes of that chunk (fewer if shorter,
as take does), stays captured with that same header for the whole run,
every produced file after the first begins with exactly the captured
bytes, and the first file holds only stream bytes: it is a prefix of
the concatenated input. -/
theorem header_capture_and_replay (hb mf mbs : Nat) (fmtO : Option BlockHeaderFormat)
    (now : Int) (r0 : Bool) (c0 : List Nat) (rest : List (Bool × List Nat)) (hhb : 0 < hb) :
    (runFB hb mf fmtO mbs now (openNewFile hb mf initFB) ((r0, c0) :: rest)).headerCaptured = true ∧
    (runFB hb mf fmtO mbs now (openNewFile hb mf initFB) ((r0, c0) :: rest)).header = c0.take hb ∧
    (∀ f ∈ (filesFB (runFB hb mf fmtO mbs now (openNewFile hb mf initFB) ((r0, c0) :: rest))).drop 1,
      ∃ t, f = (runFB hb mf fmtO mbs now (openNewFile hb mf initFB) ((r0, c0) :: rest)).header ++ t) ∧
    (∃ t, (((r0, c0) :: rest).map Prod.snd).flatten =
      firstFileFB (runFB hb mf fmtO mbs now (openNewFile hb mf initFB) ((r0, c0) :: rest)) ++ t) := by
  have hcap0 : (openNewFile hb mf initFB).headerCaptured = false := by
    simp [openNewFile, initFB]
  have hfirst := writeFB_first_capture hb mf mbs fmtO now (openNewFile hb mf initFB) r0 c0 hcap0 hhb
  have hrun : runFB hb mf fmtO mbs now (openNewFile hb mf initFB) ((r0, c0) :: rest) =
      runFB hb mf fmtO mbs now
        (writeFB hb mf fmtO mbs now (openNewFile hb mf initFB) (r0, c0)) rest := rfl
  have hstab := runFB_header_stable hb mf mbs fmtO now rest
    (writeFB hb mf fmtO mbs now (openNewFile hb mf initFB) (r0, c0)) hfirst.2
  have hInv := runFB_inv hb mf mbs fmtO now ((r0, c0) :: rest) (openNewFile hb mf initFB) []
    (initFB_inv hb mf)
  obtain ⟨h1, h2, h3, _, _⟩ := hInv
  refine ⟨by rw [hrun]; exact hstab.2, by rw [hrun, hstab.1, hfirst.1], ?_, ?_⟩
  · intro f hf
    rw [filesFB] at hf
    cases hcf : (runFB hb mf fmtO mbs now (openNewFile hb mf initFB) ((r0, c0) :: rest)).closedFiles with
    | nil =>
      rw [hcf] at hf
      simp at hf
    | cons g gs =>
      rw [hcf] at hf
      simp only [List.cons_append, List.drop_succ_cons, List.drop_zero] at hf
      rcases List.mem_append.mp hf with hmem | hmem
      · exact h3 f (by rw [hcf]; simpa using hmem)
      · have hfe : f = (runFB hb mf fmtO mbs now (openNewFile hb mf initFB) ((r0, c0) :: rest)).current := by
          simpa using hmem
        obtain ⟨t, ht⟩ := h2 (by rw [hcf]; simp)
        exact ⟨t, by rw [hfe, ht]⟩
  · obtain ⟨t, ht⟩ := stripConcat_first
      (runFB hb mf fmtO mbs now (openNewFile hb mf initFB) ((r0, c0) :: rest))
    refine ⟨t, ?_⟩
    rw [← ht]
    simpa using h1.symm

/-! ### Concrete witnesses -/

/-- A descriptor with a single 16-bit length field. -/
def fmtLenW : BlockHeaderFormat :=
  { Fields := [{ Width := 16, FType := FieldType.FieldLength, MagicValue := 0, Signed := false }]
    TotalBytes := 2, HasLength := true, LengthIndex := 0, ByteOrder := Endianness.LittleEndian }

/-- A descriptor with a single 16-bit magic field 0xFFFF. -/
def fmtMagicW : BlockHeaderFormat :=
  { Fields := [{ Width := 16, FType := FieldType.FieldMagic, MagicValue := 65535, Signed := false }]
    TotalBytes := 2, HasLength := false, LengthIndex := 0, ByteOrder := Endianness.LittleEndian }

/-- The descriptor the parser builds for two 16-bit length fields. -/
def fmt2W : BlockHeaderFormat :=
  { Fields := [{ Width := 16, FType := FieldType.FieldLength, MagicValue := 0, Signed := false },
               { Width := 16, FType := FieldType.FieldLength, MagicValue := 0, Signed := false }]
    TotalBytes := 4, HasLength := true, LengthIndex := 1, ByteOrder := Endianness.LittleEndian }

theorem boundary_cut_ends_validated_block_witness :
    flushPendingData fmtLenW 10 0 [3, 0, 7, 8, 9] = FlushResult.cut [3, 0, 7, 8, 9] [] ∧
    (∃ off blen, validateBlockHeaderLen fmtLenW 10 0 (([3, 0, 7, 8, 9] : List Nat).drop off) = some blen ∧
      off + fmtLenW.TotalBytes + blen ≤ ([3, 0, 7, 8, 9] : List Nat).length ∧
      ([3, 0, 7, 8, 9] : List Nat) = ([3, 0, 7, 8, 9] : List Nat).take (off + fmtLenW.TotalBytes + blen) ∧
      [3, 0, 7, 8, 9] ++ ([] : List Nat) = [3, 0, 7, 8, 9]) :=
  ⟨by decide,
    boundary_cut_ends_validated_block fmtLenW 10 0 [3, 0, 7, 8, 9] [3, 0, 7, 8, 9] [] (by decide)⟩

theorem forced_rotation_requires_full_scan_window_witness :
    flushPendingData fmtMagicW 1 0 [0, 0, 0, 0] = FlushResult.force [0, 0, 0, 0] ∧
    (1 + fmtMagicW.TotalBytes < ([0, 0, 0, 0] : List Nat).length ∧
      ([0, 0, 0, 0] : List Nat) = [0, 0, 0, 0] ∧
      (firstValidOffsetLen fmtMagicW 1 0 [0, 0, 0, 0] = none ∨
        ∃ off blen, firstValidOffsetLen fmtMagicW 1 0 [0, 0, 0, 0] = some (off, blen) ∧
          ([0, 0, 0, 0] : List Nat).length < off + fmtMagicW.TotalBytes + blen)) :=
  ⟨by decide,
    forced_rotation_requires_full_scan_window fmtMagicW 1 0 [0, 0, 0, 0] [0, 0, 0, 0] (by decide)⟩

theorem validateBlockHeader_matches_spec_witness :
    (∀ f ∈ fmtMagicW.Fields, f.Width = 8 ∨ f.Width = 16 ∨ f.Width = 32 ∨ f.Width = 64) ∧
    fmtMagicW.TotalBytes = sumBytes fmtMagicW.Fields ∧
    fmtMagicW.TotalBytes ≤ ([255, 255] : List Nat).length ∧
    ((validateBlockHeader fmtMagicW 1 0 [255, 255] = true ↔
        specHeaderAccepts fmtMagicW 1 0 [255, 255]) ∧
      (∀ l : List Nat, readBytes Endianness.LittleEndian 1 l = readBytes Endianness.BigEndian 1 l)) :=
  ⟨by decide, by decide, by decide,
    validateBlockHeader_matches_spec fmtMagicW 1 0 [255, 255] (by decide) (by decide) (by decide)⟩

theorem lengthIndex_last_wins_witness :
    parseBlockHeaderFormat "<u16:length><u16:length>" Endianness.LittleEndian = some fmt2W ∧
    ((fmt2W.HasLength = true →
        fmt2W.LengthIndex < fmt2W.Fields.length ∧
        (fmt2W.Fields.getD fmt2W.LengthIndex dummyField).FType = FieldType.FieldLength ∧
        ∀ j, fmt2W.LengthIndex < j → j < fmt2W.Fields.length →
          (fmt2W.Fields.getD j dummyField).FType ≠ FieldType.FieldLength) ∧
      (∀ mbs now data, validateBlockHeaderLen fmt2W mbs now data =
        validateLenLastWins fmt2W mbs now data)) :=
  ⟨by decide,
    lengthIndex_last_wins "<u16:length><u16:length>" Endianness.LittleEndian fmt2W (by decide)⟩

theorem resume_trims_smallest_and_resumes_counter_witness :
    ([3, 5, 9] : List Nat).Sorted (· < ·) ∧ 0 < 2 ∧ 2 < ([3, 5, 9] : List Nat).length ∧
    ((loadExistingFiles [3, 5, 9] 2 0).deleted = ([3, 5, 9] : List Nat).take (([3, 5, 9] : List Nat).length - 2) ∧
      (loadExistingFiles [3, 5, 9] 2 0).active = ([3, 5, 9] : List Nat).drop (([3, 5, 9] : List Nat).length - 2) ∧
      (loadExistingFiles [3, 5, 9] 2 0).active.length = 2 ∧
      (loadExistingFiles [3, 5, 9] 2 0).counter = ([3, 5, 9] : List Nat).getLastD 0 + 1) :=
  ⟨by decide, by decide, by decide,
    resume_trims_smallest_and_resumes_counter [3, 5, 9] 2 0 (by decide) (by decide) (by decide)⟩

theorem retention_bound_witness :
    0 < 1 ∧ (openNewFile 0 1 initFB).activeFiles.length ≤ 1 ∧
    ((openNewFile 0 1 (openNewFile 0 1 initFB)).activeFiles.length ≤ 1 ∧
      (1 ≤ (openNewFile 0 1 initFB).activeFiles.length →
        (openNewFile 0 1 (openNewFile 0 1 initFB)).activeFiles =
          (openNewFile 0 1 initFB).activeFiles.drop 1 ++ [(openNewFile 0 1 initFB).fileCounter]) ∧
      (closeCurrentFile (openNewFile 0 1 initFB)).activeFiles.length ≤ 1 ∧
      (loadExistingFiles [1, 2, 3] 1 0).active.length ≤ 1 ∧
      (runFB 0 1 none 0 0 (openNewFile 0 1 initFB) [(true, [5])]).activeFiles.length ≤ 1) :=
  ⟨by decide, by decide,
    retention_bound 0 1 0 0 none 0 (openNewFile 0 1 initFB) [1, 2, 3] [(true, [5])]
      (by decide) (by decide)⟩

theorem header_capture_and_replay_witness :
    0 < 2 ∧
    ((runFB 2 3 none 0 0 (openNewFile 2 3 initFB) [(false, [10, 20, 30]), (true, [40, 50])]).headerCaptured = true ∧
      (runFB 2 3 none 0 0 (openNewFile 2 3 initFB) [(false, [10, 20, 30]), (true, [40, 50])]).header =
        ([10, 20, 30] : List Nat).take 2 ∧
      (∀ f ∈ (filesFB (runFB 2 3 none 0 0 (openNewFile 2 3 initFB) [(false, [10, 20, 30]), (true, [40, 50])])).drop 1,
        ∃ t, f = (runFB 2 3 none 0 0 (openNewFile 2 3 initFB) [(false, [10, 20, 30]), (true, [40, 50])]).header ++ t) ∧
      (∃ t, (([(false, [10, 20, 30]), (true, [40, 50])] : List (Bool × List Nat)).map Prod.snd).flatten =
        firstFileFB (runFB 2 3 none 0 0 (openNewFile 2 3 initFB) [(false, [10, 20, 30]), (true, [40, 50])]) ++ t)) :=
  ⟨by decide,
    header_capture_and_replay 2 3 0 none 0 false [10, 20, 30] [(true, [40, 50])] (by decide)⟩

theorem parse_ignores_nontoken_text_witness :
    tokenScan ("junk <u8:0xFF> more" : String).data ≠ [] ∧
    (∀ t ∈ tokenScan ("junk <u8:0xFF> more" : String).data, (compileField t).isSome = true) ∧
    (∃ fmt, parseBlockHeaderFormat "junk <u8:0xFF> more" Endianness.BigEndian = some fmt ∧
      fmt.Fields = (tokenScan ("junk <u8:0xFF> more" : String).data).filterMap compileField ∧
      fmt.ByteOrder = Endianness.BigEndian) :=
  ⟨by decide, by decide,
    parse_ignores_nontoken_text "junk <u8:0xFF> more" Endianness.BigEndian (by decide) (by decide)⟩
